import Mathlib

/-!
Shallow embedding of `update_weather.py`: the weighted multi-source
time-series aggregation and merge engine.

Dates are the `YYYY-MM-DD` strings the program works with; temperatures and
weights are rationals (the program's decimal literals are exact rationals).
String keys are ordered by code-point lexicographic order on their character
data, which is the order Python string comparison and the pandas sort use.
-/

namespace Weather

/-- A location of the configured basket (`LOCATIONS` in the source).
Only `weight` is used by the aggregation logic. -/
structure Location where
  name : String
  lat : ℚ
  lon : ℚ
  weight : ℚ
deriving DecidableEq

/-- The configured basket.  The `lat` literal of the Atlanta entry carries a
stray quotation mark in the source text; it is transcribed here as the
numeral it denotes. -/
def LOCATIONS : List Location :=
  [⟨"Chicago", 41.8781, -87.6298, 0.35⟩,
   ⟨"New York", 40.7128, -74.0060, 0.30⟩,
   ⟨"Denver", 39.7392, -104.9903, 0.15⟩,
   ⟨"Houston", 29.7604, -95.3698, 0.10⟩,
   ⟨"Atlanta", 33.7490, -84.3880, 0.10⟩]

/-- Code-point lexicographic order on strings (the order Python `<` and the
pandas sorts use on `YYYY-MM-DD` keys). -/
def strLe (a b : String) : Prop := a.data ≤ b.data

/-- Strict code-point lexicographic order on strings. -/
def strLt (a b : String) : Prop := a.data < b.data

instance : DecidableRel strLe := fun a b => inferInstanceAs (Decidable (a.data ≤ b.data))

instance : DecidableRel strLt := fun a b => inferInstanceAs (Decidable (a.data < b.data))

instance : IsTotal String strLe := ⟨fun a b => le_total a.data b.data⟩

instance : IsTrans String strLe := ⟨fun _ _ _ h h' => le_trans h h'⟩

/-- A daily series row `(time, avg_temp)` as held in the `daily_hist`,
`daily_fore` and `df_final` frames. -/
abbrev Series := List (String × ℚ)

/-- The `time` column of a frame. -/
def timesOf (l : Series) : List String := l.map Prod.fst

/-- Total value stored for date `d`: the sum of the values of all rows whose
`time` is `d` (for a frame with unique times, the value of `d`'s row, and `0`
when `d` is absent). -/
def mapVal : Series → String → ℚ
  | [], _ => 0
  | p :: l, d => (if p.1 = d then p.2 else 0) + mapVal l d

/-- Order on series rows by their `time` key. -/
def leTime (a b : String × ℚ) : Prop := strLe a.1 b.1

/-- Strict order on series rows by their `time` key. -/
def ltTime (a b : String × ℚ) : Prop := strLt a.1 b.1

instance : DecidableRel leTime := fun a b => inferInstanceAs (Decidable (strLe a.1 b.1))

instance : DecidableRel ltTime := fun a b => inferInstanceAs (Decidable (strLt a.1 b.1))

instance : IsTotal (String × ℚ) leTime := ⟨fun a b => IsTotal.total (r := strLe) a.1 b.1⟩

instance : IsTrans (String × ℚ) leTime := ⟨fun _ _ _ h h' => Trans.trans (r := strLe) h h'⟩

/-- Ascending sort of a frame by its `time` column (`sort_values('time')`). -/
def sortByTime (l : Series) : Series := List.insertionSort leTime l

/-- Ascending sort of a key list (the sort `groupby` applies to its keys). -/
def sortKeys (ks : List String) : List String := List.insertionSort strLe ks

/-- The pandas `groupby('time')[col].sum()`: one row per distinct time, keys
ascending, value the sum of the grouped column. -/
def groupbySum (rows : Series) : Series :=
  (sortKeys (timesOf rows).dedup).map (fun t => (t, mapVal rows t))

/-- The concatenated weighted history rows (lines 44-54 of the source): for
each location's frame, rows `(time, temp * weight)`. -/
def histRows (frames : List (Location × List (String × ℚ))) : Series :=
  frames.flatMap (fun f => f.2.map (fun r => (r.1, r.2 * f.1.weight)))

/-- The history aggregation (lines 51-56): concatenate the per-location
frames, form `weighted_temp = temp * weight`, and group-sum by `time`.
An empty frame list yields the empty `daily_hist` frame, as in the source. -/
def histAgg (frames : List (Location × List (String × ℚ))) : Series :=
  groupbySum (histRows frames)

/-- One day of a Tomorrow.io forecast payload: its `time` field and the
optional `values.temperatureAvg` field. -/
structure ForecastDay where
  time : String
  temperatureAvg : Option ℚ
deriving DecidableEq

/-- The date normalization `day['time'].split('T')[0]` (line 75): the prefix
of the timestamp before the first `T`. -/
def normTime (s : String) : String := ⟨s.data.takeWhile (fun c => c != 'T')⟩

/-- The `fore_map` update for one reading (lines 78-80): insert the date with
value `0` if absent, then add `x` to its stored value. -/
def foreMapAdd (m : Series) (dt : String) (x : ℚ) : Series :=
  if dt ∈ timesOf m then m.map (fun p => if p.1 = dt then (p.1, p.2 + x) else p)
  else m ++ [(dt, x)]

/-- Processing of one forecast day for a location of weight `w`
(lines 73-80): normalize the timestamp, read `temperatureAvg` with default
`0`, and add `temp * weight` into the date's bucket. -/
def foreStep (w : ℚ) (m : Series) (day : ForecastDay) : Series :=
  foreMapAdd m (normTime day.time) (day.temperatureAvg.getD 0 * w)

/-- The forecast aggregation (lines 67-83): fold every location's payload
into `fore_map`, then read the map off as `daily_fore` rows in insertion
order. -/
def aggregateForecast (input : List (Location × List ForecastDay)) : Series :=
  input.foldl (fun m li => li.2.foldl (foreStep li.1.weight) m) []

/-- `drop_duplicates(subset='time', keep='last')` (line 99): keep each row
whose time does not occur again later. -/
def dedupKeepLast : Series → Series
  | [] => []
  | x :: xs => if x.1 ∈ timesOf xs then dedupKeepLast xs else x :: dedupKeepLast xs

/-- The merge step (lines 88-100): concatenate whichever of the two frames
are non-empty, then, when the result is non-empty, drop duplicate times
keeping the last occurrence and sort ascending by time. -/
def mergeSeries (hist fore : Series) : Series :=
  let dfFinal : Series :=
    if ¬hist.isEmpty ∧ ¬fore.isEmpty then hist ++ fore
    else if ¬hist.isEmpty then hist
    else if ¬fore.isEmpty then fore
    else []
  if ¬dfFinal.isEmpty then sortByTime (dedupKeepLast dfFinal) else dfFinal

/-- The base temperature literal `18.33` of the source. -/
def baseTemp : ℚ := 18.33

/-- Heating degree days as computed on lines 116 and 132:
`max(0, 18.33 - x)`. -/
def hdd (x : ℚ) : ℚ := max 0 (baseTemp - x)

/-- Modelled from the spec: the repository computes no cooling-degree-day
value anywhere in its source; the spec's Degree-Day Deriver defines cooling
degree days as `max(0, temperature − base)`. -/
def cdd (x : ℚ) : ℚ := max 0 (x - baseTemp)

/-- One row of `US_AGGREGATE_NATGAS.csv`, fields in the column order fixed on
line 122: `time, open, high, low, close, volume`. -/
structure CsvRow where
  time : String
  open_ : ℚ
  high : ℚ
  low : ℚ
  close : ℚ
  volume : ℤ
deriving DecidableEq

/-- The CSV projection of `generate_files` (lines 112-122): per merged row,
`open = avg_temp`, `high = avg_temp + 2`, `low = avg_temp - 2`,
`close = max(0, 18.33 - avg_temp)`, `volume = 0`, and the time rendered as
`<date>T00:00:00Z`. -/
def generateCsv (df : Series) : List CsvRow :=
  df.map (fun p => ⟨p.1 ++ "T00:00:00Z", p.2, p.2 + 2, p.2 - 2, max 0 (baseTemp - p.2), 0⟩)

/-- The header row written by `to_csv`, in the column order of line 122. -/
def csvColumns : List String := ["time", "open", "high", "low", "close", "volume"]

/-- The tabular output of `generate_files` (lines 104-123): `none` when the
merged frame is empty (no CSV is written), otherwise the projected rows. -/
def generateFilesCsv (df : Series) : Option (List CsvRow) :=
  if df.isEmpty then none else some (generateCsv df)

/-- The message `generate_files` prints for the given frame (lines 106 and
124). -/
def generateFilesMsg (df : Series) : String :=
  if df.isEmpty then "No data to write." else "Generated US_AGGREGATE_NATGAS.csv"

/-! ### The explicit per-date weighted sums the aggregated values equal -/

/-- Sum of `temp * w` over the readings of one history frame whose date is
`d`. -/
def rowContrib (w : ℚ) : List (String × ℚ) → String → ℚ
  | [], _ => 0
  | r :: rs, d => (if r.1 = d then r.2 * w else 0) + rowContrib w rs d

/-- Sum over all history frames of each frame's weighted readings for date
`d`. -/
def histContrib : List (Location × List (String × ℚ)) → String → ℚ
  | [], _ => 0
  | f :: rest, d => rowContrib f.1.weight f.2 d + histContrib rest d

/-- Sum of `temperatureAvg * w` (missing temperatures read as `0`) over the
forecast days of one payload whose normalized date is `d`. -/
def dayContrib (w : ℚ) : List ForecastDay → String → ℚ
  | [], _ => 0
  | day :: ds, d =>
    (if normTime day.time = d then day.temperatureAvg.getD 0 * w else 0) + dayContrib w ds d

/-- Sum over all forecast payloads of each payload's weighted readings for
date `d`. -/
def foreContrib : List (Location × List ForecastDay) → String → ℚ
  | [], _ => 0
  | li :: rest, d => dayContrib li.1.weight li.2 d + foreContrib rest d

/-! ### Basic lemmas about `mapVal` and `timesOf` -/

@[simp] theorem mapVal_nil (d : String) : mapVal [] d = 0 := rfl

theorem mapVal_cons (p : String × ℚ) (l : Series) (d : String) :
    mapVal (p :: l) d = (if p.1 = d then p.2 else 0) + mapVal l d := rfl

@[simp] theorem timesOf_nil : timesOf [] = [] := rfl

@[simp] theorem timesOf_cons (p : String × ℚ) (l : Series) :
    timesOf (p :: l) = p.1 :: timesOf l := rfl

theorem timesOf_append (l₁ l₂ : Series) :
    timesOf (l₁ ++ l₂) = timesOf l₁ ++ timesOf l₂ := by
  simp [timesOf]

theorem mapVal_append (l₁ l₂ : Series) (d : String) :
    mapVal (l₁ ++ l₂) d = mapVal l₁ d + mapVal l₂ d := by
  induction l₁ with
  | nil => simp
  | cons p l ih => simp [mapVal_cons, ih, add_assoc]

theorem mapVal_eq_zero_of_not_mem {l : Series} {d : String}
    (h : d ∉ timesOf l) : mapVal l d = 0 := by
  induction l with
  | nil => rfl
  | cons p l ih =>
    simp only [timesOf_cons, List.mem_cons, not_or] at h
    rw [mapVal_cons, if_neg (fun h' => h.1 h'.symm), zero_add, ih h.2]

theorem mapVal_perm {l₁ l₂ : Series} (h : l₁.Perm l₂) (d : String) :
    mapVal l₁ d = mapVal l₂ d := by
  induction h with
  | nil => rfl
  | cons p _ ih => simp [mapVal_cons, ih]
  | swap p q l => simp [mapVal_cons, add_left_comm]
  | trans _ _ ih₁ ih₂ => exact ih₁.trans ih₂

/-! ### Lemmas about `dedupKeepLast` -/

@[simp] theorem dedupKeepLast_nil : dedupKeepLast [] = [] := rfl

theorem dedupKeepLast_cons (x : String × ℚ) (xs : Series) :
    dedupKeepLast (x :: xs) =
      if x.1 ∈ timesOf xs then dedupKeepLast xs else x :: dedupKeepLast xs := rfl

theorem dedupKeepLast_sublist (l : Series) : (dedupKeepLast l).Sublist l := by
  induction l with
  | nil => exact List.Sublist.refl []
  | cons x xs ih =>
    rw [dedupKeepLast_cons]
    split_ifs with h
    · exact ih.cons x
    · exact ih.cons₂ x

theorem mem_timesOf_dedupKeepLast {l : Series} {d : String} :
    d ∈ timesOf (dedupKeepLast l) ↔ d ∈ timesOf l := by
  induction l with
  | nil => simp
  | cons x xs ih =>
    rw [dedupKeepLast_cons]
    split_ifs with h
    · by_cases hd : d = x.1
      · subst hd; simp [ih, h]
      · simp [ih, hd]
    · simp [ih]

theorem nodup_timesOf_dedupKeepLast (l : Series) : (timesOf (dedupKeepLast l)).Nodup := by
  induction l with
  | nil => simp
  | cons x xs ih =>
    rw [dedupKeepLast_cons]
    split_ifs with h
    · exact ih
    · exact List.nodup_cons.mpr ⟨fun hmem => h (mem_timesOf_dedupKeepLast.mp hmem), ih⟩

theorem dedupKeepLast_eq_self {l : Series} (h : (timesOf l).Nodup) :
    dedupKeepLast l = l := by
  induction l with
  | nil => rfl
  | cons x xs ih =>
    rw [dedupKeepLast_cons]
    simp only [timesOf_cons, List.nodup_cons] at h
    rw [if_neg h.1, ih h.2]

theorem dedupKeepLast_append_of_subset {l₁ l₂ : Series}
    (h : ∀ a ∈ timesOf l₁, a ∈ timesOf l₂) :
    dedupKeepLast (l₁ ++ l₂) = dedupKeepLast l₂ := by
  induction l₁ with
  | nil => rfl
  | cons x xs ih =>
    rw [List.cons_append, dedupKeepLast_cons, if_pos, ih]
    · exact fun a ha => h a (by simp [ha])
    · rw [timesOf_append, List.mem_append]
      exact Or.inr (h x.1 (by simp))

theorem mapVal_dedupKeepLast_append (l₁ l₂ : Series) (d : String) :
    mapVal (dedupKeepLast (l₁ ++ l₂)) d =
      if d ∈ timesOf l₂ then mapVal (dedupKeepLast l₂) d
      else mapVal (dedupKeepLast l₁) d := by
  induction l₁ with
  | nil =>
    simp only [List.nil_append]
    split_ifs with h
    · rfl
    · exact mapVal_eq_zero_of_not_mem (fun hm => h (mem_timesOf_dedupKeepLast.mp hm))
  | cons x xs ih =>
    rw [List.cons_append, dedupKeepLast_cons]
    by_cases hx : x.1 ∈ timesOf (xs ++ l₂)
    · rw [if_pos hx, ih, dedupKeepLast_cons]
      by_cases hxl : x.1 ∈ timesOf xs
      · rw [if_pos hxl]
      · rw [if_neg hxl]
        have hx2 : x.1 ∈ timesOf l₂ := by
          have hx' := hx
          rw [timesOf_append, List.mem_append] at hx'
          exact hx'.resolve_left hxl
        by_cases hd : d ∈ timesOf l₂
        · rw [if_pos hd, if_pos hd]
        · rw [if_neg hd, if_neg hd, mapVal_cons,
            if_neg (fun he : x.1 = d => hd (by rw [← he]; exact hx2)), zero_add]
    · have hx' := hx
      rw [timesOf_append, List.mem_append, not_or] at hx'
      rw [if_neg hx, mapVal_cons, ih, dedupKeepLast_cons, if_neg hx'.1]
      by_cases hd : d ∈ timesOf l₂
      · rw [if_pos hd, if_pos hd,
          if_neg (fun he : x.1 = d => hx'.2 (by rw [he]; exact hd)), zero_add]
      · rw [if_neg hd, if_neg hd, mapVal_cons]

/-! ### Lemmas about `sortByTime` and `mergeSeries` -/

theorem sortByTime_perm (l : Series) : (sortByTime l).Perm l :=
  List.perm_insertionSort leTime l

theorem mapVal_sortByTime (l : Series) (d : String) :
    mapVal (sortByTime l) d = mapVal l d :=
  mapVal_perm (sortByTime_perm l) d

theorem sorted_sortByTime (l : Series) : List.Sorted leTime (sortByTime l) :=
  List.sorted_insertionSort leTime l

theorem mem_timesOf_sortByTime {l : Series} {d : String} :
    d ∈ timesOf (sortByTime l) ↔ d ∈ timesOf l :=
  ((sortByTime_perm l).map Prod.fst).mem_iff

theorem mergeSeries_eq (hist fore : Series) :
    mergeSeries hist fore = sortByTime (dedupKeepLast (hist ++ fore)) := by
  cases hist with
  | nil =>
    cases fore with
    | nil => rfl
    | cons q fs => simp [mergeSeries]
  | cons p hs =>
    cases fore with
    | nil => simp [mergeSeries]
    | cons q fs => simp [mergeSeries]

/-! ### The history aggregation computes `histContrib` -/

theorem mapVal_map_key (ks : List String) (g : String → ℚ) (hk : ks.Nodup) (d : String) :
    mapVal (ks.map fun t => (t, g t)) d = if d ∈ ks then g d else 0 := by
  induction ks with
  | nil => simp
  | cons k ks ih =>
    have hk' := List.nodup_cons.mp hk
    rw [List.map_cons, mapVal_cons]
    by_cases hd : k = d
    · subst hd
      rw [if_pos rfl, ih hk'.2, if_neg hk'.1, if_pos (by simp), add_zero]
    · rw [if_neg hd, ih hk'.2, zero_add]
      by_cases hm : d ∈ ks
      · rw [if_pos hm, if_pos (by simp [hm])]
      · rw [if_neg hm, if_neg (by
          simp only [List.mem_cons, not_or]
          exact ⟨fun h => hd h.symm, hm⟩)]

theorem mem_sortKeys {ks : List String} {d : String} :
    d ∈ sortKeys ks ↔ d ∈ ks :=
  (List.perm_insertionSort strLe ks).mem_iff

theorem nodup_sortKeys {ks : List String} (h : ks.Nodup) : (sortKeys ks).Nodup :=
  (List.perm_insertionSort strLe ks).nodup_iff.mpr h

theorem mapVal_groupbySum (rows : Series) (d : String) :
    mapVal (groupbySum rows) d = mapVal rows d := by
  unfold groupbySum
  rw [mapVal_map_key _ _ (nodup_sortKeys (timesOf rows).nodup_dedup)]
  by_cases hm : d ∈ timesOf rows
  · rw [if_pos (mem_sortKeys.mpr (List.mem_dedup.mpr hm))]
  · rw [if_neg (fun h => hm (List.mem_dedup.mp (mem_sortKeys.mp h))),
      mapVal_eq_zero_of_not_mem hm]

theorem mapVal_map_row (w : ℚ) (rows : List (String × ℚ)) (d : String) :
    mapVal (rows.map fun r => (r.1, r.2 * w)) d = rowContrib w rows d := by
  induction rows with
  | nil => rfl
  | cons r rs ih => simp [mapVal_cons, rowContrib, ih]

theorem mapVal_histRows (frames : List (Location × List (String × ℚ))) (d : String) :
    mapVal (histRows frames) d = histContrib frames d := by
  induction frames with
  | nil => rfl
  | cons f fs ih =>
    rw [histRows, List.flatMap_cons, mapVal_append, mapVal_map_row, histContrib]
    rw [histRows] at ih
    rw [ih]

theorem mapVal_histAgg (frames : List (Location × List (String × ℚ))) (d : String) :
    mapVal (histAgg frames) d = histContrib frames d := by
  rw [histAgg, mapVal_groupbySum, mapVal_histRows]

/-! ### The forecast aggregation computes `foreContrib` -/

theorem timesOf_update (m : Series) (dt : String) (x : ℚ) :
    timesOf (m.map (fun p => if p.1 = dt then (p.1, p.2 + x) else p)) = timesOf m := by
  induction m with
  | nil => rfl
  | cons p l ih =>
    rw [List.map_cons, timesOf_cons, ih, timesOf_cons]
    split_ifs <;> rfl

theorem timesOf_foreMapAdd (m : Series) (dt : String) (x : ℚ) :
    timesOf (foreMapAdd m dt x) =
      if dt ∈ timesOf m then timesOf m else timesOf m ++ [dt] := by
  unfold foreMapAdd
  split_ifs with h
  · exact timesOf_update m dt x
  · rw [timesOf_append, timesOf_cons, timesOf_nil]

theorem nodup_timesOf_foreMapAdd {m : Series} (h : (timesOf m).Nodup)
    (dt : String) (x : ℚ) : (timesOf (foreMapAdd m dt x)).Nodup := by
  rw [timesOf_foreMapAdd]
  split_ifs with hmem
  · exact h
  · simp [List.nodup_append, h, hmem]

theorem mapVal_update_of_not_mem {m : Series} {dt : String} (x : ℚ)
    (h : dt ∉ timesOf m) :
    m.map (fun p => if p.1 = dt then (p.1, p.2 + x) else p) = m := by
  induction m with
  | nil => rfl
  | cons p l ih =>
    simp only [timesOf_cons, List.mem_cons, not_or] at h
    rw [List.map_cons, if_neg (fun he => h.1 he.symm), ih h.2]

theorem mapVal_update_mem {dt : String} {x : ℚ} {d : String} :
    ∀ {m : Series}, (timesOf m).Nodup → dt ∈ timesOf m →
      mapVal (m.map (fun p => if p.1 = dt then (p.1, p.2 + x) else p)) d =
        mapVal m d + (if dt = d then x else 0) := by
  intro m
  induction m with
  | nil => intro _ hmem; exact absurd hmem (by simp)
  | cons p l ih =>
    intro h hmem
    rw [timesOf_cons, List.nodup_cons] at h
    rw [timesOf_cons, List.mem_cons] at hmem
    rw [List.map_cons]
    by_cases hpd : p.1 = dt
    · rw [if_pos hpd]
      have hnotin : dt ∉ timesOf l := by rw [← hpd]; exact h.1
      rw [mapVal_update_of_not_mem x hnotin]
      have e1 : mapVal ((p.1, p.2 + x) :: l) d
          = (if p.1 = d then p.2 + x else 0) + mapVal l d := rfl
      rw [e1, mapVal_cons]
      by_cases hd : p.1 = d
      · rw [if_pos hd, if_pos hd, if_pos (by rw [← hpd]; exact hd)]
        ring
      · rw [if_neg hd, if_neg hd, if_neg (by rw [← hpd]; exact hd)]
        ring
    · have hdt : dt ∈ timesOf l := hmem.resolve_left (fun he => hpd he.symm)
      rw [if_neg hpd, mapVal_cons, mapVal_cons, ih h.2 hdt]
      ring

theorem mapVal_foreMapAdd {m : Series} (h : (timesOf m).Nodup)
    (dt : String) (x : ℚ) (d : String) :
    mapVal (foreMapAdd m dt x) d = mapVal m d + (if dt = d then x else 0) := by
  unfold foreMapAdd
  by_cases hmem : dt ∈ timesOf m
  · rw [if_pos hmem]
    exact mapVal_update_mem h hmem
  · have e : mapVal [(dt, x)] d = (if dt = d then x else 0) := by
      rw [show mapVal [(dt, x)] d = (if dt = d then x else 0) + mapVal [] d from rfl,
        mapVal_nil, add_zero]
    rw [if_neg hmem, mapVal_append, e]

theorem nodup_timesOf_foreStep {m : Series} (h : (timesOf m).Nodup)
    (w : ℚ) (day : ForecastDay) : (timesOf (foreStep w m day)).Nodup :=
  nodup_timesOf_foreMapAdd h _ _

theorem mapVal_foreStep {m : Series} (h : (timesOf m).Nodup)
    (w : ℚ) (day : ForecastDay) (d : String) :
    mapVal (foreStep w m day) d =
      mapVal m d + (if normTime day.time = d then day.temperatureAvg.getD 0 * w else 0) :=
  mapVal_foreMapAdd h _ _ _

theorem nodup_timesOf_foldl_foreStep (w : ℚ) (days : List ForecastDay) :
    ∀ m : Series, (timesOf m).Nodup → (timesOf (days.foldl (foreStep w) m)).Nodup := by
  induction days with
  | nil => exact fun m h => h
  | cons day ds ih =>
    intro m h
    exact ih _ (nodup_timesOf_foreStep h _ _)

theorem mapVal_foldl_foreStep (w : ℚ) (days : List ForecastDay) (d : String) :
    ∀ m : Series, (timesOf m).Nodup →
      mapVal (days.foldl (foreStep w) m) d = mapVal m d + dayContrib w days d := by
  induction days with
  | nil => intro m _; simp [dayContrib]
  | cons day ds ih =>
    intro m h
    rw [List.foldl_cons, ih (foreStep w m day) (nodup_timesOf_foreStep h _ _),
      mapVal_foreStep h, dayContrib, add_assoc]

theorem nodup_timesOf_foldl_input (input : List (Location × List ForecastDay)) :
    ∀ m : Series, (timesOf m).Nodup →
      (timesOf (input.foldl (fun m li => li.2.foldl (foreStep li.1.weight) m) m)).Nodup := by
  induction input with
  | nil => exact fun m h => h
  | cons li rest ih =>
    intro m h
    exact ih _ (nodup_timesOf_foldl_foreStep _ _ _ h)

theorem mapVal_foldl_input (input : List (Location × List ForecastDay)) (d : String) :
    ∀ m : Series, (timesOf m).Nodup →
      mapVal (input.foldl (fun m li => li.2.foldl (foreStep li.1.weight) m) m) d =
        mapVal m d + foreContrib input d := by
  induction input with
  | nil => intro m _; simp [foreContrib]
  | cons li rest ih =>
    intro m h
    rw [List.foldl_cons, ih _ (nodup_timesOf_foldl_foreStep _ _ _ h),
      mapVal_foldl_foreStep _ _ _ _ h, foreContrib, add_assoc]

theorem nodup_timesOf_aggregateForecast (input : List (Location × List ForecastDay)) :
    (timesOf (aggregateForecast input)).Nodup :=
  nodup_timesOf_foldl_input input [] (by simp)

theorem mapVal_aggregateForecast (input : List (Location × List ForecastDay)) (d : String) :
    mapVal (aggregateForecast input) d = foreContrib input d := by
  rw [aggregateForecast, mapVal_foldl_input input d [] (by simp), mapVal_nil, zero_add]

/-! ### Strict ascending order of the merged series -/

theorem pairwise_ltTime_mergeSeries (hist fore : Series) :
    List.Pairwise ltTime (mergeSeries hist fore) := by
  rw [mergeSeries_eq]
  have hs : List.Pairwise leTime (sortByTime (dedupKeepLast (hist ++ fore))) :=
    sorted_sortByTime _
  have hn : (timesOf (sortByTime (dedupKeepLast (hist ++ fore)))).Nodup :=
    ((sortByTime_perm _).map Prod.fst).nodup_iff.mpr (nodup_timesOf_dedupKeepLast _)
  have hne : List.Pairwise (fun a b : String × ℚ => a.1 ≠ b.1)
      (sortByTime (dedupKeepLast (hist ++ fore))) := List.pairwise_map.mp hn
  exact (hs.and hne).imp (fun hab =>
    lt_of_le_of_ne hab.1 (fun he => hab.2 (String.ext he)))

theorem string_data_length (s : String) : s.data.length = s.length := by
  cases s
  rfl

theorem lex_append_of_length_eq {α : Type} [LT α] {l₁ l₂ : List α} (u : List α)
    (hlen : l₁.length = l₂.length) (h : List.Lex (· < ·) l₁ l₂) :
    List.Lex (· < ·) (l₁ ++ u) (l₂ ++ u) := by
  induction h with
  | nil => simp at hlen
  | rel hab => exact List.Lex.rel hab
  | cons _ ih => exact List.Lex.cons (ih (by simpa using hlen))

theorem strLt_append (u : String) {s t : String} (hlen : s.length = t.length)
    (h : strLt s t) : strLt (s ++ u) (t ++ u) := by
  show (s ++ u).data < (t ++ u).data
  rw [String.data_append, String.data_append]
  exact lex_append_of_length_eq u.data
    (by rw [string_data_length, string_data_length, hlen]) h

theorem mem_append_of_mem_mergeSeries {hist fore : Series} {p : String × ℚ}
    (hp : p ∈ mergeSeries hist fore) : p ∈ hist ++ fore := by
  rw [mergeSeries_eq] at hp
  exact (dedupKeepLast_sublist _).subset ((sortByTime_perm _).subset hp)

/-! ### The claims -/

/-- C3: for every date present in both aggregated series, the merged value
is the forecast value (forecast overrides history); for a date present in
exactly one series, the merged value is that series' value, and the merged
series carries exactly the union of the dates. -/
theorem merge_forecast_overrides_history (hist fore : Series) (d : String)
    (h1 : (timesOf hist).Nodup) (h2 : (timesOf fore).Nodup) :
    (d ∈ timesOf fore → mapVal (mergeSeries hist fore) d = mapVal fore d) ∧
    (d ∉ timesOf fore → d ∈ timesOf hist →
      mapVal (mergeSeries hist fore) d = mapVal hist d) ∧
    (d ∈ timesOf (mergeSeries hist fore) ↔ d ∈ timesOf hist ∨ d ∈ timesOf fore) := by
  have key : mapVal (mergeSeries hist fore) d =
      if d ∈ timesOf fore then mapVal fore d else mapVal hist d := by
    rw [mergeSeries_eq, mapVal_sortByTime, mapVal_dedupKeepLast_append,
      dedupKeepLast_eq_self h1, dedupKeepLast_eq_self h2]
  refine ⟨fun hm => by rw [key, if_pos hm], fun hm _ => by rw [key, if_neg hm], ?_⟩
  rw [mergeSeries_eq, mem_timesOf_sortByTime, mem_timesOf_dedupKeepLast,
    timesOf_append, List.mem_append]

theorem merge_forecast_overrides_history_witness :
    (timesOf [("2024-01-01", (5 : ℚ))]).Nodup ∧
    (timesOf [("2024-01-01", (7 : ℚ))]).Nodup ∧
    "2024-01-01" ∈ timesOf [("2024-01-01", (7 : ℚ))] ∧
    mapVal (mergeSeries [("2024-01-01", (5 : ℚ))] [("2024-01-01", (7 : ℚ))]) "2024-01-01"
      = mapVal [("2024-01-01", (7 : ℚ))] "2024-01-01" :=
  ⟨by decide, by decide, by decide,
    (merge_forecast_overrides_history [("2024-01-01", (5 : ℚ))] [("2024-01-01", (7 : ℚ))]
      "2024-01-01" (by decide) (by decide)).1 (by decide)⟩

/-- C4: for every pair of input series the merged series has unique dates in
strictly increasing order and, whenever all input dates are (like ISO dates)
of the same length, the tabular output rows are strictly ascending in their
`time` strings, in particular no two rows share a `time`. -/
theorem merge_unique_strictly_increasing (hist fore : Series) :
    List.Pairwise ltTime (mergeSeries hist fore) ∧
    ((∀ p ∈ hist ++ fore, p.1.length = 10) →
      List.Pairwise (fun r r' : CsvRow => strLt r.time r'.time)
        (generateCsv (mergeSeries hist fore))) := by
  refine ⟨pairwise_ltTime_mergeSeries hist fore, fun hlen => ?_⟩
  have hp := pairwise_ltTime_mergeSeries hist fore
  rw [generateCsv, List.pairwise_map]
  refine hp.imp_of_mem ?_
  intro a b ha hb hab
  show strLt (a.1 ++ "T00:00:00Z") (b.1 ++ "T00:00:00Z")
  exact strLt_append _
    (by rw [hlen a (mem_append_of_mem_mergeSeries ha),
      hlen b (mem_append_of_mem_mergeSeries hb)]) hab

theorem merge_unique_strictly_increasing_witness :
    (∀ p ∈ ([("2024-01-02", (5 : ℚ))] ++ [("2024-01-01", (7 : ℚ))] : Series),
      p.1.length = 10) ∧
    List.Pairwise ltTime (mergeSeries [("2024-01-02", (5 : ℚ))] [("2024-01-01", (7 : ℚ))]) ∧
    List.Pairwise (fun r r' : CsvRow => strLt r.time r'.time)
      (generateCsv (mergeSeries [("2024-01-02", (5 : ℚ))] [("2024-01-01", (7 : ℚ))])) :=
  ⟨by decide,
    (merge_unique_strictly_increasing [("2024-01-02", (5 : ℚ))] [("2024-01-01", (7 : ℚ))]).1,
    (merge_unique_strictly_increasing [("2024-01-02", (5 : ℚ))]
      [("2024-01-01", (7 : ℚ))]).2 (by decide)⟩

/-- C8: merging a series with itself yields a merged series with exactly the
dates of the input and the same value per date. -/
theorem merge_idempotent (s : Series) (d : String) (h : (timesOf s).Nodup) :
    (mergeSeries s s).Perm s ∧ mapVal (mergeSeries s s) d = mapVal s d := by
  have e : mergeSeries s s = sortByTime s := by
    rw [mergeSeries_eq, dedupKeepLast_append_of_subset (fun a ha => ha),
      dedupKeepLast_eq_self h]
  exact ⟨e ▸ sortByTime_perm s, by rw [e, mapVal_sortByTime]⟩

theorem merge_idempotent_witness :
    (timesOf [("b", (2 : ℚ)), ("a", (1 : ℚ))]).Nodup ∧
    ((mergeSeries [("b", (2 : ℚ)), ("a", (1 : ℚ))] [("b", (2 : ℚ)), ("a", (1 : ℚ))]).Perm
        [("b", (2 : ℚ)), ("a", (1 : ℚ))] ∧
      mapVal (mergeSeries [("b", (2 : ℚ)), ("a", (1 : ℚ))] [("b", (2 : ℚ)), ("a", (1 : ℚ))]) "a"
        = mapVal [("b", (2 : ℚ)), ("a", (1 : ℚ))] "a") :=
  ⟨by decide, merge_idempotent [("b", (2 : ℚ)), ("a", (1 : ℚ))] "a" (by decide)⟩

/-- C9: when both aggregated series are empty the merged frame is empty, no
tabular output is produced, and the condition is surfaced by a user-visible
message. -/
theorem empty_sources_no_output :
    mergeSeries [] [] = [] ∧
    generateFilesCsv (mergeSeries [] []) = none ∧
    generateFilesMsg (mergeSeries [] []) = "No data to write." :=
  ⟨rfl, rfl, rfl⟩

/-- C10: every forecast timeline entry is folded into the bucket of its
normalized date: the bucket value of each date is the sum of
`temperatureAvg * weight` over all entries of all payloads normalizing to
that date, so repeated entries for one date accumulate instead of being
deduplicated. -/
theorem forecast_bucket_sums_all_entries (input : List (Location × List ForecastDay))
    (d : String) :
    (timesOf (aggregateForecast input)).Nodup ∧
    mapVal (aggregateForecast input) d = foreContrib input d :=
  ⟨nodup_timesOf_aggregateForecast input, mapVal_aggregateForecast input d⟩

/-- C6: heating and cooling degree days with base `18.33` satisfy their
defining max-formulas, are mutually exclusive, and their difference equals
`base − T` exactly. -/
theorem degree_day_properties (T : ℚ) :
    hdd T = max 0 (baseTemp - T) ∧ cdd T = max 0 (T - baseTemp) ∧
    baseTemp = 1833 / 100 ∧
    (hdd T = 0 ∨ cdd T = 0) ∧ hdd T - cdd T = baseTemp - T := by
  refine ⟨rfl, rfl, by norm_num [baseTemp], ?_, ?_⟩
  · rcases le_total T baseTemp with h | h
    · right
      rw [cdd, max_eq_left (by linarith)]
    · left
      rw [hdd, max_eq_left (by linarith)]
  · rcases le_total T baseTemp with h | h
    · rw [hdd, cdd, max_eq_right (by linarith), max_eq_left (by linarith)]
      ring
    · rw [hdd, cdd, max_eq_left (by linarith), max_eq_right (by linarith)]
      ring

/-! ### Helper lemmas for baskets reporting a uniform temperature -/

theorem rowContrib_of_filter_nil (w : ℚ) :
    ∀ {rows : List (String × ℚ)} {d : String},
      rows.filter (fun r => r.1 == d) = [] → rowContrib w rows d = 0 := by
  intro rows
  induction rows with
  | nil => intro d _; rfl
  | cons r rs ih =>
    intro d hf
    rw [List.filter_cons] at hf
    by_cases hrd : r.1 = d
    · simp [hrd] at hf
    · rw [if_neg (by simp [hrd])] at hf
      rw [rowContrib, if_neg hrd, zero_add, ih hf]

theorem rowContrib_of_filter_single (w : ℚ) {d : String} {T : ℚ} :
    ∀ {rows : List (String × ℚ)},
      rows.filter (fun r => r.1 == d) = [(d, T)] → rowContrib w rows d = T * w := by
  intro rows
  induction rows with
  | nil => intro hf; simp at hf
  | cons r rs ih =>
    intro hf
    rw [List.filter_cons] at hf
    by_cases hrd : r.1 = d
    · rw [if_pos (by simp [hrd])] at hf
      have hr : r = (d, T) := (List.cons.inj hf).1
      have hrest : rs.filter (fun r => r.1 == d) = [] := (List.cons.inj hf).2
      rw [rowContrib, if_pos hrd, rowContrib_of_filter_nil w hrest, add_zero, hr]
    · rw [if_neg (by simp [hrd])] at hf
      rw [rowContrib, if_neg hrd, zero_add, ih hf]

/-- C1 counterexample: a one-location basket of weight `0.35` reporting
`10 °C` for a date is finalized as `10 * 0.35 = 3.5`, which differs from the
renormalized mean `weightedTemperatureSum / accumulatedWeight = 3.5 / 0.35 = 10`
the claim states. -/
theorem aggregator_not_renormalized_cex :
    mapVal (histAgg [(⟨"Chicago", 41.8781, -87.6298, 0.35⟩, [("2024-01-01", 10)])])
        "2024-01-01" = 10 * (35 / 100) ∧
    (10 * (35 / 100) : ℚ) ≠ (10 * (35 / 100)) / (35 / 100) := by
  constructor
  · rw [mapVal_histAgg]
    simp [histContrib, rowContrib]
    norm_num
  · norm_num

/-- C1 amended: for every source (history and forecast) and every date, the
aggregator's finalized value is the plain sum of `temperature * weight` over
the readings for that date; no division by the accumulated weight is
performed. -/
theorem aggregator_value_is_weighted_sum (frames : List (Location × List (String × ℚ)))
    (input : List (Location × List ForecastDay)) (d : String) :
    mapVal (histAgg frames) d = histContrib frames d ∧
    mapVal (aggregateForecast input) d = foreContrib input d :=
  ⟨mapVal_histAgg frames d, mapVal_aggregateForecast input d⟩

/-- C2 counterexample: a forecast payload whose only day has no
`temperatureAvg` produces the bucket `("2024-01-02", 0)` — the date enters
the fold as a valid reading of zero instead of being excluded. -/
theorem missing_temperature_coerced_to_zero_cex :
    aggregateForecast
        [(⟨"Atlanta", 33.7490, -84.3880, 0.10⟩, [⟨"2024-01-02T12:00:00Z", none⟩])]
      = [("2024-01-02", 0)] ∧
    "2024-01-02" ∈ timesOf (aggregateForecast
        [(⟨"Atlanta", 33.7490, -84.3880, 0.10⟩, [⟨"2024-01-02T12:00:00Z", none⟩])]) := by
  have hnorm : normTime "2024-01-02T12:00:00Z" = "2024-01-02" := by decide
  have e : aggregateForecast
      [(⟨"Atlanta", 33.7490, -84.3880, 0.10⟩, [⟨"2024-01-02T12:00:00Z", none⟩])]
      = [("2024-01-02", 0)] := by
    simp [aggregateForecast, foreStep, foreMapAdd, hnorm, timesOf]
  exact ⟨e, by rw [e]; simp [timesOf]⟩

/-- C2 amended: a forecast day with a missing `temperatureAvg` is defaulted
to `0` and folded like any reading, contributing `0 * weight` to its
normalized date's accumulator and entering that date into the bucket map;
it is not excluded. -/
theorem missing_temperature_folded_as_zero (w : ℚ) (m : Series) (day : ForecastDay)
    (h : day.temperatureAvg = none) :
    foreStep w m day = foreMapAdd m (normTime day.time) (0 * w) ∧
    normTime day.time ∈ timesOf (foreStep w m day) := by
  have e : foreStep w m day = foreMapAdd m (normTime day.time) (0 * w) := by
    rw [foreStep, h]
    rfl
  refine ⟨e, ?_⟩
  rw [e, timesOf_foreMapAdd]
  split_ifs with hmem
  · exact hmem
  · simp

theorem missing_temperature_folded_as_zero_witness :
    (ForecastDay.mk "2024-01-02T12:00:00Z" none).temperatureAvg = none ∧
    (foreStep (1 / 10) [] ⟨"2024-01-02T12:00:00Z", none⟩
        = foreMapAdd [] (normTime "2024-01-02T12:00:00Z") (0 * (1 / 10)) ∧
      normTime "2024-01-02T12:00:00Z"
        ∈ timesOf (foreStep (1 / 10) [] ⟨"2024-01-02T12:00:00Z", none⟩)) :=
  ⟨rfl, missing_temperature_folded_as_zero (1 / 10) [] ⟨"2024-01-02T12:00:00Z", none⟩ rfl⟩

/-- C5 counterexample: for a merged point of `30 °C` (a cooling day), the
written row carries `volume = 0`, while the claimed integer-scaled
cooling-degree-days `round(cdd * 10)` is `round(11.67 * 10) = 117 ≠ 0`. -/
theorem csv_volume_zero_cex :
    generateCsv [("2024-07-01", 30)]
      = [⟨"2024-07-01T00:00:00Z", 30, 32, 28, 0, 0⟩] ∧
    (0 : ℤ) ≠ round (cdd 30 * 10) := by
  constructor
  · have happ : "2024-07-01" ++ "T00:00:00Z" = "2024-07-01T00:00:00Z" := by decide
    have hmax : max (0 : ℚ) (baseTemp - 30) = 0 := max_eq_left (by norm_num [baseTemp])
    simp [generateCsv, happ, hmax]
    norm_num
  · have hc : cdd 30 = 1167 / 100 := by
      rw [cdd, baseTemp]
      rw [max_eq_right (by norm_num)]
      norm_num
    rw [hc]
    rw [show ((1167 / 100 : ℚ) * 10) = 1167 / 10 by norm_num]
    rw [round_eq]
    norm_num

/-- C5 amended: each output row has `open` the average temperature,
`high = open + 2`, `low = open − 2`, `close = max(0, 18.33 − open)` (the
heating degree days) and `volume = 0` — not the integer-scaled
cooling-degree-days — with the columns in the fixed order
`time, open, high, low, close, volume`. -/
theorem csv_row_shape (df : Series) :
    (∀ i : ℕ, (generateCsv df)[i]? = (df[i]?).map
      (fun p => ⟨p.1 ++ "T00:00:00Z", p.2, p.2 + 2, p.2 - 2, hdd p.2, 0⟩)) ∧
    (∀ row ∈ generateCsv df, row.high = row.open_ + 2 ∧ row.low = row.open_ - 2 ∧
      row.close = hdd row.open_ ∧ row.volume = 0) ∧
    csvColumns = ["time", "open", "high", "low", "close", "volume"] := by
  refine ⟨fun i => ?_, fun row hrow => ?_, rfl⟩
  · rw [generateCsv, List.getElem?_map]
    rfl
  · rw [generateCsv, List.mem_map] at hrow
    obtain ⟨p, _, hp⟩ := hrow
    rw [← hp]
    exact ⟨rfl, rfl, rfl, rfl⟩

theorem csv_row_shape_witness :
    (⟨"2024-01-01" ++ "T00:00:00Z", 20, 20 + 2, 20 - 2, max 0 (baseTemp - 20), 0⟩ : CsvRow)
        ∈ generateCsv [("2024-01-01", 20)] ∧
    ((⟨"2024-01-01" ++ "T00:00:00Z", 20, 20 + 2, 20 - 2, max 0 (baseTemp - 20), 0⟩ : CsvRow).high
        = (⟨"2024-01-01" ++ "T00:00:00Z", 20, 20 + 2, 20 - 2,
            max 0 (baseTemp - 20), 0⟩ : CsvRow).open_ + 2 ∧
      (⟨"2024-01-01" ++ "T00:00:00Z", 20, 20 + 2, 20 - 2, max 0 (baseTemp - 20), 0⟩ : CsvRow).low
        = (⟨"2024-01-01" ++ "T00:00:00Z", 20, 20 + 2, 20 - 2,
            max 0 (baseTemp - 20), 0⟩ : CsvRow).open_ - 2 ∧
      (⟨"2024-01-01" ++ "T00:00:00Z", 20, 20 + 2, 20 - 2,
          max 0 (baseTemp - 20), 0⟩ : CsvRow).close
        = hdd (⟨"2024-01-01" ++ "T00:00:00Z", 20, 20 + 2, 20 - 2,
            max 0 (baseTemp - 20), 0⟩ : CsvRow).open_ ∧
      (⟨"2024-01-01" ++ "T00:00:00Z", 20, 20 + 2, 20 - 2,
          max 0 (baseTemp - 20), 0⟩ : CsvRow).volume = 0) :=
  ⟨List.mem_singleton.mpr rfl,
    (csv_row_shape [("2024-01-01", 20)]).2.1 _ (List.mem_singleton.mpr rfl)⟩

/-- C7 counterexample: a basket consisting of one location of weight `1/2`
whose every location reports `10 °C` for the date is aggregated to `5`, not
to the common temperature `10`. -/
theorem uniform_temperature_cex :
    mapVal (histAgg [(⟨"Solo", 0, 0, 1 / 2⟩, [("2024-01-01", 10)])]) "2024-01-01" = 5 ∧
    (5 : ℚ) ≠ 10 := by
  constructor
  · rw [mapVal_histAgg]
    simp [histContrib, rowContrib]
    norm_num
  · norm_num

/-- C7 amended: if every location of the basket reports the same temperature
`T` exactly once for date `d`, the aggregated value for `d` is `T` times the
sum of the basket's weights — so it equals `T` exactly when the weights sum
to `1`, not for every weight distribution. -/
theorem uniform_temperature_scales_with_weight_sum
    (frames : List (Location × List (String × ℚ))) (d : String) (T : ℚ)
    (h : ∀ f ∈ frames, f.2.filter (fun r => r.1 == d) = [(d, T)]) :
    mapVal (histAgg frames) d = T * (frames.map (fun f => f.1.weight)).sum := by
  rw [mapVal_histAgg]
  induction frames with
  | nil => simp [histContrib]
  | cons f fs ih =>
    rw [histContrib, ih (fun g hg => h g (List.mem_cons_of_mem f hg)),
      List.map_cons, List.sum_cons,
      rowContrib_of_filter_single f.1.weight (h f (List.mem_cons_self f fs))]
    ring

theorem uniform_temperature_scales_with_weight_sum_witness :
    (∀ f ∈ [((⟨"A", 0, 0, 3 / 5⟩ : Location), [("2024-02-01", (10 : ℚ))]),
        ((⟨"B", 0, 0, 2 / 5⟩ : Location), [("2024-02-01", (10 : ℚ))])],
      f.2.filter (fun r => r.1 == "2024-02-01") = [("2024-02-01", (10 : ℚ))]) ∧
    mapVal (histAgg [((⟨"A", 0, 0, 3 / 5⟩ : Location), [("2024-02-01", (10 : ℚ))]),
        ((⟨"B", 0, 0, 2 / 5⟩ : Location), [("2024-02-01", (10 : ℚ))])]) "2024-02-01"
      = 10 * ([((⟨"A", 0, 0, 3 / 5⟩ : Location), [("2024-02-01", (10 : ℚ))]),
          ((⟨"B", 0, 0, 2 / 5⟩ : Location), [("2024-02-01", (10 : ℚ))])].map
            (fun f => f.1.weight)).sum :=
  ⟨by decide,
    uniform_temperature_scales_with_weight_sum
      [((⟨"A", 0, 0, 3 / 5⟩ : Location), [("2024-02-01", (10 : ℚ))]),
        ((⟨"B", 0, 0, 2 / 5⟩ : Location), [("2024-02-01", (10 : ℚ))])]
      "2024-02-01" 10 (by decide)⟩

end Weather
